import Mathlib

/-!
Verification development for the deduplication-and-filtering pipeline of
src/deduplicate.py: content hashing (get_hash), quality statistics
(alpha_stats, line_stats), the stateful exact-duplicate filter
(check_uniques, filter), the duplicate-fraction computation, the shard
loop, and compress_file.  Python floats are modelled as exact rationals
with NaN as none; the Python set of hashes is a Finset over the hex-digest
strings; sequential dataset traversal is an explicit fold threading the
set.
-/

/-- ASCII fragment of the classification used by Python str.isalnum
(non-ASCII letters and digits are not exercised by this development). -/
def pyIsAlnum (c : Char) : Bool := c.isAlphanum

/-- Python whitespace: the character class matched by the regex class \s
(equivalently str.isspace). -/
def pyIsSpace (c : Char) : Bool :=
  let n := c.toNat
  n = 0x9 || n = 0xa || n = 0xb || n = 0xc || n = 0xd || n = 0x1c || n = 0x1d ||
  n = 0x1e || n = 0x1f || n = 0x20 || n = 0x85 || n = 0xa0 || n = 0x1680 ||
  (0x2000 ≤ n && n ≤ 0x200a) || n = 0x2028 || n = 0x2029 || n = 0x202f ||
  n = 0x205f || n = 0x3000

/-- re.sub(PATTERN, "", text) with PATTERN the regex of one-or-more
whitespace: replacing every maximal whitespace run by the empty string
deletes exactly the whitespace characters. -/
def stripWs (text : String) : String :=
  String.mk (text.toList.filter (fun c => !pyIsSpace c))

/-- UTF-8 encoding of one code point (str.encode with utf-8). -/
def utf8Char (c : Char) : List ℕ :=
  let n := c.toNat
  if n < 128 then [n]
  else if n < 2048 then [192 + n / 64, 128 + n % 64]
  else if n < 65536 then [224 + n / 4096, 128 + n / 64 % 64, 128 + n % 64]
  else [240 + n / 262144, 128 + n / 4096 % 64, 128 + n / 64 % 64, 128 + n % 64]

def utf8Encode (s : List Char) : List ℕ := s.flatMap utf8Char

/-- MD5 per-round left-rotation amounts. -/
def md5S : List ℕ :=
  [7, 12, 17, 22, 7, 12, 17, 22, 7, 12, 17, 22, 7, 12, 17, 22,
   5, 9, 14, 20, 5, 9, 14, 20, 5, 9, 14, 20, 5, 9, 14, 20,
   4, 11, 16, 23, 4, 11, 16, 23, 4, 11, 16, 23, 4, 11, 16, 23,
   6, 10, 15, 21, 6, 10, 15, 21, 6, 10, 15, 21, 6, 10, 15, 21]

/-- MD5 round constants (the binary integer parts of the sines). -/
def md5K : List ℕ :=
  [0xd76aa478, 0xe8c7b756, 0x242070db, 0xc1bdceee,
   0xf57c0faf, 0x4787c62a, 0xa8304613, 0xfd469501,
   0x698098d8, 0x8b44f7af, 0xffff5bb1, 0x895cd7be,
   0x6b901122, 0xfd987193, 0xa679438e, 0x49b40821,
   0xf61e2562, 0xc040b340, 0x265e5a51, 0xe9b6c7aa,
   0xd62f105d, 0x02441453, 0xd8a1e681, 0xe7d3fbc8,
   0x21e1cde6, 0xc33707d6, 0xf4d50d87, 0x455a14ed,
   0xa9e3e905, 0xfcefa3f8, 0x676f02d9, 0x8d2a4c8a,
   0xfffa3942, 0x8771f681, 0x6d9d6122, 0xfde5380c,
   0xa4beea44, 0x4bdecfa9, 0xf6bb4b60, 0xbebfbc70,
   0x289b7ec6, 0xeaa127fa, 0xd4ef3085, 0x04881d05,
   0xd9d4d039, 0xe6db99e5, 0x1fa27cf8, 0xc4ac5665,
   0xf4292244, 0x432aff97, 0xab9423a7, 0xfc93a039,
   0x655b59c3, 0x8f0ccc92, 0xffeff47d, 0x85845dd1,
   0x6fa87e4f, 0xfe2ce6e0, 0xa3014314, 0x4e0811a1,
   0xf7537e82, 0xbd3af235, 0x2ad7d2bb, 0xeb86d391]

/-- Bitwise complement within 32 bits. -/
def not32 (x : ℕ) : ℕ := x ^^^ 0xffffffff

/-- Left rotation of a 32-bit word. -/
def rotl32 (x s : ℕ) : ℕ := ((x <<< s) ||| (x >>> (32 - s))) % 4294967296

/-- One MD5 round on the state (a, b, c, d) with message words M. -/
def md5Round (M : List ℕ) (st : ℕ × ℕ × ℕ × ℕ) (i : ℕ) : ℕ × ℕ × ℕ × ℕ :=
  let a := st.1
  let b := st.2.1
  let c := st.2.2.1
  let d := st.2.2.2
  let fg : ℕ × ℕ :=
    if i < 16 then ((b &&& c) ||| (not32 b &&& d), i)
    else if i < 32 then ((d &&& b) ||| (not32 d &&& c), (5 * i + 1) % 16)
    else if i < 48 then (b ^^^ c ^^^ d, (3 * i + 5) % 16)
    else (c ^^^ (b ||| not32 d), 7 * i % 16)
  let f := (fg.1 + a + md5K.getD i 0 + M.getD fg.2 0) % 4294967296
  (d, (b + rotl32 f (md5S.getD i 0)) % 4294967296, b, c)

/-- Process one 64-byte block (given as 16 little-endian words). -/
def md5Block (st : ℕ × ℕ × ℕ × ℕ) (M : List ℕ) : ℕ × ℕ × ℕ × ℕ :=
  let r := (List.range 64).foldl (md5Round M) st
  ((st.1 + r.1) % 4294967296, (st.2.1 + r.2.1) % 4294967296,
   (st.2.2.1 + r.2.2.1) % 4294967296, (st.2.2.2 + r.2.2.2) % 4294967296)

/-- Group bytes into little-endian 32-bit words. -/
def leWords : List ℕ → List ℕ
  | b0 :: b1 :: b2 :: b3 :: rest =>
      (b0 + 256 * b1 + 65536 * b2 + 16777216 * b3) :: leWords rest
  | _ => []

/-- Split a byte list into 64-byte blocks. -/
def chunk64 (l : List ℕ) : List (List ℕ) :=
  if h : l = [] then [] else l.take 64 :: chunk64 (l.drop 64)
termination_by l.length
decreasing_by
  simp only [List.length_drop]
  have : 0 < l.length := List.length_pos.mpr h
  omega

/-- The k least-significant bytes of a number, little-endian. -/
def leBytes (k n : ℕ) : List ℕ := (List.range k).map (fun i => n / 256 ^ i % 256)

/-- MD5 padding: a 1-bit, zeros to 56 mod 64 bytes, the 64-bit bit length. -/
def md5Pad (msg : List ℕ) : List ℕ :=
  msg ++ [128] ++ List.replicate ((120 - (msg.length + 1) % 64) % 64) 0 ++
    leBytes 8 (8 * msg.length)

/-- The 16 digest bytes of MD5. -/
def md5Bytes (msg : List ℕ) : List ℕ :=
  let r := (chunk64 (md5Pad msg)).foldl (fun st blk => md5Block st (leWords blk))
    (0x67452301, 0xefcdab89, 0x98badcfe, 0x10325476)
  leBytes 4 r.1 ++ leBytes 4 r.2.1 ++ leBytes 4 r.2.2.1 ++ leBytes 4 r.2.2.2

def hexDigit (n : ℕ) : Char := if n < 10 then Char.ofNat (48 + n) else Char.ofNat (87 + n)

/-- Lowercase hex string of a byte list (hashlib hexdigest). -/
def hexdigest (bytes : List ℕ) : String :=
  String.mk (bytes.flatMap (fun b => [hexDigit (b / 16), hexDigit (b % 16)]))

/-- get_hash from src/deduplicate.py: md5 hexdigest of the UTF-8 encoding of
the text with all whitespace runs deleted. -/
def get_hash (text : String) : String :=
  hexdigest (md5Bytes (utf8Encode (stripWs text).toList))

/-- alpha_stats from src/deduplicate.py: np.mean over the per-character
isalnum booleans of the unmodified text, an exact rational here; np.mean
of the empty list is NaN, modelled as none. -/
def alpha_stats (text : String) : Option ℚ :=
  let bs := text.toList.map (fun c => pyIsAlnum c)
  if bs.length = 0 then none
  else some ((bs.count true : ℚ) / (bs.length : ℚ))

/-- Line boundaries recognised by str.splitlines, besides the two-character
carriage-return line-feed pair which is handled separately. -/
def pyIsLineBoundary (c : Char) : Bool :=
  let n := c.toNat
  n = 0xa || n = 0xb || n = 0xc || n = 0xd || n = 0x1c || n = 0x1d || n = 0x1e ||
  n = 0x85 || n = 0x2028 || n = 0x2029

/-- str.splitlines over a character list, accumulating the current line;
the carriage-return line-feed pair counts as a single boundary. -/
def splitlinesAux : List Char → List Char → List (List Char)
  | [], acc => if acc.isEmpty then [] else [acc.reverse]
  | '\r' :: '\n' :: rest, acc => acc.reverse :: splitlinesAux rest []
  | c :: rest, acc =>
    if pyIsLineBoundary c then acc.reverse :: splitlinesAux rest []
    else splitlinesAux rest (c :: acc)

def pySplitlines (text : String) : List (List Char) := splitlinesAux text.toList []

/-- line_stats from src/deduplicate.py: the lengths of the lines. -/
def line_stats (text : String) : List ℕ := (pySplitlines text).map List.length

/-- The feature columns attached to a record by preprocess. -/
structure Features where
  hash : String
  alpha_frac : Option ℚ
  line_len : List ℕ
deriving DecidableEq

def defaultFeatures : Features := { hash := "", alpha_frac := none, line_len := [] }

/-- preprocess from src/deduplicate.py. -/
def preprocess (text : String) : Features :=
  { hash := get_hash text, alpha_frac := alpha_stats text, line_len := line_stats text }

/-- Modelled from the spec: the configuration surface (PreprocessingArguments
of arguments.py, which is not part of src/).  alpha_frac, samples_per_file
and jaccard_threshold are the options src/deduplicate.py reads;
compression_level is the compression-level option the spec lists. -/
structure PreprocessingArguments where
  alpha_frac : ℚ
  samples_per_file : ℕ
  jaccard_threshold : ℚ
  compression_level : ℕ

/-- check_uniques from src/deduplicate.py.  The Python function mutates the
shared set and returns a Bool; here the updated set is returned
alongside the verdict. -/
def check_uniques (ex : Features) (uniques : Finset String) : Bool × Finset String :=
  if ex.hash ∈ uniques then (true, uniques.erase ex.hash) else (false, uniques)

/-- The Python comparison x < t where x may be NaN (none): NaN < t is False. -/
def pyLt (x : Option ℚ) (t : ℚ) : Bool :=
  match x with
  | none => false
  | some q => decide (q < t)

/-- filter from src/deduplicate.py.  The set update is the one performed by
the inner check_uniques call, whatever the verdict. -/
def filter (ex : Features) (uniques : Finset String) (args : PreprocessingArguments) :
    Bool × Finset String :=
  let r := check_uniques ex uniques
  (if r.1 = false then false
   else if pyLt ex.alpha_frac args.alpha_frac then false
   else if ex.line_len = [] then false
   else true, r.2)

/-- Sequential evaluation of check_uniques over a corpus, threading the
shared set through the calls in iteration order. -/
def runChecks : List Features → Finset String → List Bool × Finset String
  | [], u => ([], u)
  | ex :: l, u =>
    let r := check_uniques ex u
    let rest := runChecks l r.2
    (r.1 :: rest.1, rest.2)

/-- Sequential evaluation of filter over a corpus (the ds.filter call with
the shared uniques set), threading the set in iteration order. -/
def runFilter : List Features → Finset String → PreprocessingArguments → List Bool × Finset String
  | [], u, _ => ([], u)
  | ex :: l, u, args =>
    let r := filter ex u args
    let rest := runFilter l r.2 args
    (r.1 :: rest.1, rest.2)

/-- uniques built at line 91: the set of the distinct hashes of the corpus. -/
def uniquesOf (ds : List Features) : Finset String := (ds.map Features.hash).toFinset

/-- frac at line 92: len(uniques) divided by len(ds).  On an empty corpus
Python raises ZeroDivisionError, modelled as none. -/
def dupFraction (ds : List Features) : Option ℚ :=
  if ds.length = 0 then none
  else some (((uniquesOf ds).card : ℚ) / (ds.length : ℚ))

/-- Python range(start, stop, step) for a positive step: CPython computes
the length as the rounded-up quotient and indexes; range with step 0
raises ValueError, modelled as the empty list. -/
def pyRange (start stop step : ℕ) : List ℕ :=
  if step = 0 then []
  else (List.range ((stop - start + step - 1) / step)).map (fun i => start + i * step)

/-- The shard loop at lines 120-124: for index in range(0, len(ds), n),
select the rows from index up to min(len(ds), index + n). -/
def saveShards {α : Type} (l : List α) (n : ℕ) : List (List α) :=
  (pyRange 0 l.length n).map
    (fun index => (l.drop index).take (min l.length (index + n) - index))

/-- Contents of the gz output file: a finished gzip stream written at a
given compression level, or a stream truncated by an exception mid-copy. -/
inductive FileData where
  | gzComplete (level : ℕ) (bytes : List ℕ)
  | gzTruncated (level : ℕ) (bytes : List ℕ)
deriving DecidableEq

inductive PyError where
  | fileNotFound
  | ioFailure
deriving DecidableEq

/-- The two paths compress_file touches: file_path and its gz sibling. -/
structure FS where
  src : Option (List ℕ)
  dst : Option FileData
deriving DecidableEq

/-- compress_file from src/deduplicate.py over the two-file state: open the
source, stream it into a gzip file at compresslevel 6, then unlink the
source.  fail = some k models an exception raised after k bytes were
copied: the exception propagates, the source is not unlinked, and the gz
file is left truncated. -/
def compress_file (fs : FS) (fail : Option ℕ) : Option PyError × FS :=
  match fs.src with
  | none => (some PyError.fileNotFound, fs)
  | some d =>
    match fail with
    | some k =>
        (some PyError.ioFailure,
         { src := some d, dst := some (FileData.gzTruncated 6 (d.take k)) })
    | none => (none, { src := none, dst := some (FileData.gzComplete 6 d) })

/-- The compression level recorded in the gz file, if one was written. -/
def writtenLevel : Option FileData → Option ℕ
  | some (FileData.gzComplete lv _) => some lv
  | some (FileData.gzTruncated lv _) => some lv
  | none => none

lemma runChecks_nil (u : Finset String) : runChecks [] u = ([], u) := rfl

lemma runChecks_cons (ex : Features) (l : List Features) (u : Finset String) :
    runChecks (ex :: l) u =
      ((check_uniques ex u).1 :: (runChecks l (check_uniques ex u).2).1,
       (runChecks l (check_uniques ex u).2).2) := rfl

lemma runFilter_nil (u : Finset String) (args : PreprocessingArguments) :
    runFilter [] u args = ([], u) := rfl

lemma runFilter_cons (ex : Features) (l : List Features) (u : Finset String)
    (args : PreprocessingArguments) :
    runFilter (ex :: l) u args =
      ((filter ex u args).1 :: (runFilter l (filter ex u args).2 args).1,
       (runFilter l (filter ex u args).2 args).2) := rfl

lemma filter_snd (ex : Features) (u : Finset String) (args : PreprocessingArguments) :
    (filter ex u args).2 = (check_uniques ex u).2 := rfl

lemma check_uniques_fst (ex : Features) (u : Finset String) :
    (check_uniques ex u).1 = true ↔ ex.hash ∈ u := by
  unfold check_uniques; split <;> simp_all

lemma mem_check_uniques_snd (ex : Features) (u : Finset String) (h : String) :
    h ∈ (check_uniques ex u).2 ↔ h ∈ u ∧ ex.hash ≠ h := by
  unfold check_uniques; split
  · rename_i hm
    simp only [Finset.mem_erase]
    constructor
    · rintro ⟨h1, h2⟩; exact ⟨h2, fun e => h1 e.symm⟩
    · rintro ⟨h1, h2⟩; exact ⟨fun e => h2 e.symm, h1⟩
  · rename_i hm
    constructor
    · intro h1; exact ⟨h1, fun e => hm (e ▸ h1)⟩
    · exact And.left

lemma check_uniques_snd_subset (ex : Features) (u : Finset String) :
    (check_uniques ex u).2 ⊆ u := by
  unfold check_uniques; split
  · exact Finset.erase_subset _ _
  · exact Finset.Subset.refl u

lemma runChecks_fst_getD (l : List Features) (u : Finset String) (i : ℕ) (hi : i < l.length) :
    ((runChecks l u).1.getD i false = true ↔
      (l.getD i defaultFeatures).hash ∈ u ∧
        ∀ j, j < i → (l.getD j defaultFeatures).hash ≠ (l.getD i defaultFeatures).hash) := by
  induction l generalizing u i with
  | nil => simp at hi
  | cons ex l ih =>
    rw [runChecks_cons]
    cases i with
    | zero =>
      simp only [List.getD_cons_zero]
      rw [check_uniques_fst]
      simp
    | succ i =>
      simp only [List.getD_cons_succ]
      have hi' : i < l.length := by simpa using hi
      rw [ih (check_uniques ex u).2 i hi', mem_check_uniques_snd]
      constructor
      · rintro ⟨⟨h1, h2⟩, h3⟩
        refine ⟨h1, fun j hj => ?_⟩
        cases j with
        | zero => simpa using h2
        | succ j => simpa using h3 j (Nat.lt_of_succ_lt_succ hj)
      · rintro ⟨h1, h2⟩
        exact ⟨⟨h1, by simpa using h2 0 (Nat.succ_pos i)⟩,
          fun j hj => by simpa using h2 (j + 1) (Nat.succ_lt_succ hj)⟩

lemma getD_mem_of_lt (l : List Features) (i : ℕ) (hi : i < l.length) :
    l.getD i defaultFeatures ∈ l := by
  rw [List.getD_eq_getElem l defaultFeatures hi]
  exact List.getElem_mem hi

/-- C1: with the unique-hash set initialised to the distinct hashes of the
corpus, sequential evaluation of check_uniques accepts exactly the first
record of each hash group in iteration order and rejects every later
record of the group. -/
theorem check_uniques_first_occurrence (l : List Features) (i : ℕ) (hi : i < l.length) :
    ((runChecks l (uniquesOf l)).1.getD i false = true ↔
      ∀ j, j < i → (l.getD j defaultFeatures).hash ≠ (l.getD i defaultFeatures).hash) := by
  rw [runChecks_fst_getD l (uniquesOf l) i hi]
  have hm : (l.getD i defaultFeatures).hash ∈ uniquesOf l := by
    unfold uniquesOf
    rw [List.mem_toFinset]
    exact List.mem_map_of_mem Features.hash (getD_mem_of_lt l i hi)
  exact ⟨And.right, fun h => ⟨hm, h⟩⟩

/-- C1 witness: a two-record corpus sharing one hash, checked at index 1:
the second record of the group is the one rejected. -/
theorem check_uniques_first_occurrence_witness :
    (1 < ([⟨"a", none, [1]⟩, ⟨"a", none, [2]⟩] : List Features).length) ∧
    ((runChecks [⟨"a", none, [1]⟩, ⟨"a", none, [2]⟩]
        (uniquesOf [⟨"a", none, [1]⟩, ⟨"a", none, [2]⟩])).1.getD 1 false = true ↔
      ∀ j, j < 1 →
        (([⟨"a", none, [1]⟩, ⟨"a", none, [2]⟩] : List Features).getD j defaultFeatures).hash ≠
          (([⟨"a", none, [1]⟩, ⟨"a", none, [2]⟩] : List Features).getD 1 defaultFeatures).hash) :=
  ⟨by decide, check_uniques_first_occurrence [⟨"a", none, [1]⟩, ⟨"a", none, [2]⟩] 1 (by decide)⟩

lemma runChecks_snd_eq (l : List Features) (u : Finset String) :
    (runChecks l u).2 = u \ (l.map Features.hash).toFinset := by
  induction l generalizing u with
  | nil => simp [runChecks_nil]
  | cons ex l ih =>
    rw [runChecks_cons]
    dsimp only
    rw [ih]
    ext h
    simp only [Finset.mem_sdiff, mem_check_uniques_snd, List.map_cons, List.toFinset_cons,
      Finset.mem_insert]
    constructor
    · rintro ⟨⟨h1, h2⟩, h3⟩
      exact ⟨h1, fun hc => hc.elim (fun e => h2 e.symm) h3⟩
    · rintro ⟨h1, h2⟩
      exact ⟨⟨h1, fun e => h2 (Or.inl e.symm)⟩, fun hr => h2 (Or.inr hr)⟩

lemma runChecks_count_add_card (l : List Features) (u : Finset String) :
    (runChecks l u).1.count true + ((runChecks l u).2).card = u.card := by
  induction l generalizing u with
  | nil => simp [runChecks_nil]
  | cons ex l ih =>
    rw [runChecks_cons]
    dsimp only
    by_cases hm : ex.hash ∈ u
    · have h1 : check_uniques ex u = (true, u.erase ex.hash) := by simp [check_uniques, hm]
      rw [h1]
      dsimp only
      have h2 := ih (u.erase ex.hash)
      have hcard : (u.erase ex.hash).card = u.card - 1 := Finset.card_erase_of_mem hm
      have hpos : 0 < u.card := Finset.card_pos.mpr ⟨ex.hash, hm⟩
      simp only [List.count_cons, beq_self_eq_true, if_true]
      omega
    · have h1 : check_uniques ex u = (false, u) := by simp [check_uniques, hm]
      rw [h1]
      dsimp only
      have h2 := ih u
      simp [List.count_cons]
      omega

lemma runFilter_snd_eq_runChecks (l : List Features) (u : Finset String)
    (args : PreprocessingArguments) :
    (runFilter l u args).2 = (runChecks l u).2 := by
  induction l generalizing u with
  | nil => rfl
  | cons ex l ih =>
    rw [runFilter_cons, runChecks_cons]
    dsimp only
    rw [filter_snd, ih]

/-- C10: after filter has been applied sequentially to the whole corpus,
starting from the set of its distinct hashes, the set is drained empty, and
check_uniques answered true exactly as many times as there are distinct
hashes. -/
theorem runFilter_drains_all (l : List Features) (args : PreprocessingArguments) :
    (runFilter l (uniquesOf l) args).2 = ∅ ∧
    (runChecks l (uniquesOf l)).1.count true = (uniquesOf l).card := by
  have h2 : (runChecks l (uniquesOf l)).2 = ∅ := by
    rw [runChecks_snd_eq]
    exact Finset.sdiff_self _
  constructor
  · rw [runFilter_snd_eq_runChecks, h2]
  · have h1 := runChecks_count_add_card l (uniquesOf l)
    rw [h2] at h1
    simpa using h1

lemma filter_fst_false_of_not_mem (ex : Features) (u : Finset String)
    (args : PreprocessingArguments) (hm : ex.hash ∉ u) :
    (filter ex u args).1 = false := by
  have h1 : check_uniques ex u = (false, u) := by simp [check_uniques, hm]
  simp [filter, h1]

lemma runFilter_reject_of_not_mem (l : List Features) (u : Finset String)
    (args : PreprocessingArguments) (h : String) (hm : h ∉ u) :
    (∀ i, i < l.length → (l.getD i defaultFeatures).hash = h →
      (runFilter l u args).1.getD i false = false) ∧ h ∉ (runFilter l u args).2 := by
  induction l generalizing u with
  | nil => exact ⟨fun i hi => absurd hi (by simp), by simpa [runFilter_nil] using hm⟩
  | cons ex l ih =>
    have hm' : h ∉ (filter ex u args).2 := by
      rw [filter_snd]
      exact fun hh => hm (check_uniques_snd_subset ex u hh)
    obtain ⟨ih1, ih2⟩ := ih (filter ex u args).2 hm'
    rw [runFilter_cons]
    refine ⟨?_, ih2⟩
    intro i hi hh
    cases i with
    | zero =>
      simp only [List.getD_cons_zero] at hh ⊢
      exact filter_fst_false_of_not_mem ex u args (by rw [hh]; exact hm)
    | succ i =>
      simp only [List.getD_cons_succ] at hh ⊢
      exact ih1 i (by simpa using hi) hh

/-- C2: filter consumes the record's hash through check_uniques before the
alpha_frac and line_len checks, so a record whose hash is still present is
erased from the set even when rejected for low alpha_frac or empty
line_len, and every later record bearing the same hash is rejected. -/
theorem filter_consumes_hash (ex : Features) (u : Finset String)
    (args : PreprocessingArguments) (l : List Features) (i : ℕ) (hmem : ex.hash ∈ u) :
    (filter ex u args).2 = u.erase ex.hash ∧
    ((pyLt ex.alpha_frac args.alpha_frac = true ∨ ex.line_len = []) →
      (filter ex u args).1 = false) ∧
    (i < l.length → (l.getD i defaultFeatures).hash = ex.hash →
      (runFilter l (filter ex u args).2 args).1.getD i false = false) := by
  have hc : check_uniques ex u = (true, u.erase ex.hash) := by simp [check_uniques, hmem]
  refine ⟨by rw [filter_snd, hc], ?_, ?_⟩
  · rintro (h | h) <;> simp [filter, hc, h]
  · intro hi hh
    have hnot : ex.hash ∉ (filter ex u args).2 := by
      rw [filter_snd, hc]
      exact Finset.not_mem_erase _ _
    exact (runFilter_reject_of_not_mem l (filter ex u args).2 args ex.hash hnot).1 i hi hh

/-- C2 witness: a record with hash h and alpha_frac 0 against threshold one
half is rejected, its hash is erased, and the later record with hash h is
rejected too. -/
theorem filter_consumes_hash_witness :
    ((⟨"h", some 0, [3]⟩ : Features).hash ∈ ({"h"} : Finset String)) ∧
    ((filter ⟨"h", some 0, [3]⟩ {"h"} ⟨1/2, 2, 17/20, 6⟩).2 =
        ({"h"} : Finset String).erase (⟨"h", some 0, [3]⟩ : Features).hash ∧
     ((pyLt (⟨"h", some 0, [3]⟩ : Features).alpha_frac
          (⟨1/2, 2, 17/20, 6⟩ : PreprocessingArguments).alpha_frac = true ∨
        (⟨"h", some 0, [3]⟩ : Features).line_len = []) →
       (filter ⟨"h", some 0, [3]⟩ {"h"} ⟨1/2, 2, 17/20, 6⟩).1 = false) ∧
     (0 < ([⟨"h", some 1, [3]⟩] : List Features).length →
       (([⟨"h", some 1, [3]⟩] : List Features).getD 0 defaultFeatures).hash =
          (⟨"h", some 0, [3]⟩ : Features).hash →
       (runFilter [⟨"h", some 1, [3]⟩]
          (filter ⟨"h", some 0, [3]⟩ {"h"} ⟨1/2, 2, 17/20, 6⟩).2
          ⟨1/2, 2, 17/20, 6⟩).1.getD 0 false = false)) :=
  ⟨by decide,
   filter_consumes_hash ⟨"h", some 0, [3]⟩ {"h"} ⟨1/2, 2, 17/20, 6⟩
     [⟨"h", some 1, [3]⟩] 0 (by decide)⟩

lemma runFilter_snd_subset (l : List Features) (u : Finset String)
    (args : PreprocessingArguments) :
    (runFilter l u args).2 ⊆ u := by
  induction l generalizing u with
  | nil => exact Finset.Subset.refl u
  | cons ex l ih =>
    rw [runFilter_cons]
    dsimp only
    have h1 : (filter ex u args).2 ⊆ u := by
      rw [filter_snd]
      exact check_uniques_snd_subset ex u
    exact Finset.Subset.trans (ih _) h1

lemma runFilter_append_snd (l₁ l₂ : List Features) (u : Finset String)
    (args : PreprocessingArguments) :
    (runFilter (l₁ ++ l₂) u args).2 = (runFilter l₂ (runFilter l₁ u args).2 args).2 := by
  induction l₁ generalizing u with
  | nil => rfl
  | cons ex l₁ ih =>
    rw [List.cons_append, runFilter_cons, runFilter_cons]
    dsimp only
    exact ih _

/-- C8: the unique-hash set is only drained: check_uniques leaves the set
unchanged on a false verdict and erases exactly the record's hash on a true
verdict, filter performs exactly the check_uniques update, and across any
sequence of filter calls the set decreases under the subset order from its
initial value. -/
theorem uniques_drained_monotone (ex : Features) (u : Finset String)
    (args : PreprocessingArguments) (l₁ l₂ : List Features) :
    ((check_uniques ex u).1 = false → (check_uniques ex u).2 = u) ∧
    ((check_uniques ex u).1 = true →
      ex.hash ∈ u ∧ (check_uniques ex u).2 = u.erase ex.hash) ∧
    (filter ex u args).2 = (check_uniques ex u).2 ∧
    (runFilter (l₁ ++ l₂) u args).2 ⊆ (runFilter l₁ u args).2 ∧
    (runFilter l₁ u args).2 ⊆ u := by
  refine ⟨?_, ?_, filter_snd ex u args, ?_, runFilter_snd_subset l₁ u args⟩
  · intro hf
    by_cases hm : ex.hash ∈ u
    · simp [check_uniques, hm] at hf
    · simp [check_uniques, hm]
  · intro ht
    by_cases hm : ex.hash ∈ u
    · exact ⟨hm, by simp [check_uniques, hm]⟩
    · simp [check_uniques, hm] at ht
  · rw [runFilter_append_snd]
    exact runFilter_snd_subset l₂ _ args

/-- C8 witness: at a present hash the verdict is true and the set update is
exactly the erasure of that hash. -/
theorem uniques_drained_monotone_witness :
    ((check_uniques ⟨"a", none, []⟩ {"a"}).1 = true) ∧
    ((⟨"a", none, []⟩ : Features).hash ∈ ({"a"} : Finset String) ∧
      (check_uniques ⟨"a", none, []⟩ {"a"}).2 =
        ({"a"} : Finset String).erase (⟨"a", none, []⟩ : Features).hash) :=
  ⟨by decide,
   (uniques_drained_monotone ⟨"a", none, []⟩ {"a"} ⟨0, 1, 0, 6⟩ [] []).2.1 (by decide)⟩

/-- C3: get_hash is a function of the record's text alone, and two texts
whose whitespace-deleted forms agree, that is texts differing only in the
placement or amount of whitespace runs, receive equal digests. -/
theorem get_hash_deterministic_ws_invariant (t₁ t₂ : String) :
    (t₁ = t₂ → get_hash t₁ = get_hash t₂) ∧
    (stripWs t₁ = stripWs t₂ → get_hash t₁ = get_hash t₂) := by
  refine ⟨fun h => by rw [h], fun h => ?_⟩
  unfold get_hash
  rw [h]

/-- C3 witness: two texts equal up to whitespace runs hash identically. -/
theorem get_hash_deterministic_ws_invariant_witness :
    (stripWs "ab\tcd" = stripWs " abcd ") ∧ get_hash "ab\tcd" = get_hash " abcd " :=
  ⟨by decide, (get_hash_deterministic_ws_invariant "ab\tcd" " abcd ").2 (by decide)⟩

/-- C4 counterexample: on the empty text np.mean receives an empty list and
alpha_stats yields NaN (modelled none), not a fraction in the unit
interval, refuting the claim read over every input text. -/
theorem alpha_stats_empty_not_a_number :
    alpha_stats "" = none ∧ ∀ q : ℚ, alpha_stats "" ≠ some q := by
  refine ⟨rfl, fun q h => ?_⟩
  simp [alpha_stats] at h

lemma count_true_map (p : Char → Bool) (l : List Char) :
    (l.map (fun c => p c)).count true = l.countP (fun c => p c) := by
  induction l with
  | nil => rfl
  | cons c cs ih =>
    simp only [List.map_cons, List.count_cons, List.countP_cons, ih]
    cases hp : p c <;> simp

lemma alpha_stats_eq (t : String) (h : t.toList ≠ []) :
    alpha_stats t =
      some ((t.toList.countP (fun c => pyIsAlnum c) : ℚ) / (t.toList.length : ℚ)) := by
  unfold alpha_stats
  dsimp only
  rw [if_neg (by rw [List.length_map]; exact fun h0 => h (List.length_eq_zero.mp h0))]
  rw [count_true_map, List.length_map]

/-- C4 amended: on every nonempty text, alpha_stats is the exact fraction
of alphanumeric characters of the unmodified text, lies in the unit
interval, and is zero when no character is alphanumeric (whitespace or
punctuation only); the empty text instead yields NaN. -/
theorem alpha_stats_nonempty_fraction (t : String) (ht : t ≠ "") :
    ∃ q : ℚ,
      alpha_stats t = some q ∧
      q = (t.toList.countP (fun c => pyIsAlnum c) : ℚ) / (t.toList.length : ℚ) ∧
      0 ≤ q ∧ q ≤ 1 ∧
      ((∀ c, c ∈ t.toList → pyIsAlnum c = false) → q = 0) := by
  have hne : t.toList ≠ [] := fun h => ht (String.ext h)
  have hlen : 0 < t.toList.length := List.length_pos.mpr hne
  have hlenQ : (0 : ℚ) < (t.toList.length : ℚ) := by exact_mod_cast hlen
  refine ⟨(t.toList.countP (fun c => pyIsAlnum c) : ℚ) / (t.toList.length : ℚ),
    alpha_stats_eq t hne, rfl, ?_, ?_, ?_⟩
  · exact div_nonneg (by positivity) (by positivity)
  · rw [div_le_one hlenQ]
    exact_mod_cast List.countP_le_length _
  · intro hws
    have h0 : t.toList.countP (fun c => pyIsAlnum c) = 0 :=
      List.countP_eq_zero.mpr (fun c hc => by simp [hws c hc])
    rw [h0]
    simp

/-- C4 amended witness: a nonempty text of whitespace and punctuation only
gets the fraction zero. -/
theorem alpha_stats_nonempty_fraction_witness :
    ((" ." : String) ≠ "") ∧
    (∃ q : ℚ,
      alpha_stats " ." = some q ∧
      q = ((" ." : String).toList.countP (fun c => pyIsAlnum c) : ℚ) /
        (((" ." : String).toList.length : ℚ)) ∧
      0 ≤ q ∧ q ≤ 1 ∧
      ((∀ c, c ∈ (" ." : String).toList → pyIsAlnum c = false) → q = 0)) :=
  ⟨by decide, alpha_stats_nonempty_fraction " ." (by decide)⟩

/-- C5: at the empty corpus the duplicate-fraction computation at line 92
divides len(uniques) by len(ds) = 0 and raises ZeroDivisionError (modelled
none), aborting the run, although the shard loop itself would have
produced zero shards. -/
theorem empty_corpus_division_by_zero :
    dupFraction [] = none ∧ ∀ n : ℕ, saveShards ([] : List Features) n = [] := by
  refine ⟨rfl, fun n => ?_⟩
  by_cases hn : n = 0
  · simp [saveShards, pyRange, hn]
  · have h1 : (n - 1) / n = 0 := Nat.div_eq_of_lt (by omega)
    simp [saveShards, pyRange, hn, h1]

/-- C7: after a successful compress_file only the compressed file exists
(the source was unlinked) and it holds the complete stream; a failure
during compression propagates the error, leaves the uncompressed source in
place, and the gz path does not hold a complete stream. -/
theorem compress_file_atomic (fs : FS) (d : List ℕ) (hsrc : fs.src = some d) :
    ((compress_file fs none).1 = none ∧
     (compress_file fs none).2.src = none ∧
     (compress_file fs none).2.dst = some (FileData.gzComplete 6 d)) ∧
    (∀ k : ℕ,
      (compress_file fs (some k)).1 = some PyError.ioFailure ∧
      (compress_file fs (some k)).2.src = some d ∧
      ∀ lv bytes, (compress_file fs (some k)).2.dst ≠ some (FileData.gzComplete lv bytes)) := by
  cases fs with
  | mk src dst =>
    dsimp only at hsrc
    subst hsrc
    refine ⟨⟨rfl, rfl, rfl⟩, fun k => ⟨rfl, rfl, fun lv bytes h => ?_⟩⟩
    simp [compress_file] at h

/-- C7 witness: a concrete file system with one source file. -/
theorem compress_file_atomic_witness :
    ((⟨some [1, 2, 3], none⟩ : FS).src = some [1, 2, 3]) ∧
    (((compress_file ⟨some [1, 2, 3], none⟩ none).1 = none ∧
      (compress_file ⟨some [1, 2, 3], none⟩ none).2.src = none ∧
      (compress_file ⟨some [1, 2, 3], none⟩ none).2.dst =
        some (FileData.gzComplete 6 [1, 2, 3])) ∧
     (∀ k : ℕ,
       (compress_file ⟨some [1, 2, 3], none⟩ (some k)).1 = some PyError.ioFailure ∧
       (compress_file ⟨some [1, 2, 3], none⟩ (some k)).2.src = some [1, 2, 3] ∧
       ∀ lv bytes, (compress_file ⟨some [1, 2, 3], none⟩ (some k)).2.dst ≠
         some (FileData.gzComplete lv bytes))) :=
  ⟨rfl, compress_file_atomic ⟨some [1, 2, 3], none⟩ [1, 2, 3] rfl⟩

/-- C9 counterexample: a configuration whose compression level is 9, while
compress_file writes the gz stream at the hard-coded level 6. -/
theorem compress_level_ignores_config :
    ((⟨0, 2, 17/20, 9⟩ : PreprocessingArguments).compression_level = 9) ∧
    (compress_file ⟨some [104], none⟩ none).2.dst = some (FileData.gzComplete 6 [104]) ∧
    (6 : ℕ) ≠ 9 :=
  ⟨rfl, rfl, by decide⟩

/-- C9 amended: the gzip level compress_file writes is the constant 6, for
every source, prior gz state and outcome; the configured compression level
is never consulted. -/
theorem compress_level_always_six (d : List ℕ) (dst0 : Option FileData) (fail : Option ℕ) :
    writtenLevel (compress_file ⟨some d, dst0⟩ fail).2.dst = some 6 := by
  cases fail <;> rfl

lemma saveShards_nil {α : Type} (n : ℕ) (hn : 0 < n) : saveShards ([] : List α) n = [] := by
  unfold saveShards pyRange
  rw [if_neg hn.ne']
  simp only [List.length_nil]
  rw [show (0 - 0 + n - 1) / n = 0 from Nat.div_eq_of_lt (by omega)]
  rfl

lemma ceil_div_succ (len n : ℕ) (hn : 0 < n) (hlen : 0 < len) :
    (len - n + n - 1) / n + 1 = (len + n - 1) / n := by
  rcases le_or_lt n len with h | h
  · rw [show len - n + n - 1 = len - 1 from by omega,
      show len + n - 1 = len - 1 + n from by omega, Nat.add_div_right _ hn]
  · rw [show len - n + n - 1 = n - 1 from by omega, Nat.div_eq_of_lt (by omega)]
    have hle : 1 ≤ (len + n - 1) / n := (Nat.le_div_iff_mul_le hn).mpr (by omega)
    have hlt : (len + n - 1) / n < 2 := (Nat.div_lt_iff_lt_mul hn).mpr (by omega)
    omega

lemma pyRange_zero_cons (len n : ℕ) (hn : 0 < n) (hlen : 0 < len) :
    pyRange 0 len n = 0 :: (pyRange 0 (len - n) n).map (fun i => i + n) := by
  unfold pyRange
  rw [if_neg hn.ne', if_neg hn.ne']
  have hc : (len - 0 + n - 1) / n = (len - n - 0 + n - 1) / n + 1 := by
    simpa using (ceil_div_succ len n hn hlen).symm
  rw [hc, List.range_succ_eq_map, List.map_cons, List.map_map, List.map_map]
  have hfun : ((fun i => 0 + i * n) ∘ Nat.succ) = ((fun i => i + n) ∘ fun i => 0 + i * n) := by
    funext i
    simp only [Function.comp_apply, Nat.succ_eq_add_one]
    ring
  rw [hfun]
  simp

lemma saveShards_cons {α : Type} (l : List α) (n : ℕ) (hn : 0 < n) (hl : l ≠ []) :
    saveShards l n = l.take n :: saveShards (l.drop n) n := by
  unfold saveShards
  have hlen : 0 < l.length := List.length_pos.mpr hl
  rw [pyRange_zero_cons l.length n hn hlen, List.map_cons, List.map_map, List.length_drop]
  congr 1
  · simp only [List.drop_zero, Nat.zero_add, Nat.sub_zero]
    rcases le_total l.length n with h | h
    · rw [min_eq_left h, List.take_length, List.take_of_length_le h]
    · rw [min_eq_right h]
  · have hfun :
        ((fun index => (l.drop index).take (min l.length (index + n) - index)) ∘ fun i => i + n) =
          fun index => ((l.drop n).drop index).take (min (l.length - n) (index + n) - index) := by
      funext i
      simp only [Function.comp_apply]
      rw [List.drop_drop, Nat.add_comm n i]
      congr 1
      omega
    rw [hfun]

/-- C6: for a positive shard size, the shard loop partitions the final
record sequence into consecutive order-preserving groups: the group count
is the rounded-up quotient, concatenating the shards in shard-index order
reproduces the sequence exactly, and every shard has size samples_per_file
except possibly the last, whose size is positive and at most
samples_per_file. -/
theorem saveShards_partition {α : Type} (l : List α) (n : ℕ) (hn : 0 < n) :
    (saveShards l n).length = (l.length + n - 1) / n ∧
    (saveShards l n).flatten = l ∧
    ∀ i, i < (saveShards l n).length →
      (0 < ((saveShards l n).getD i []).length ∧
       ((saveShards l n).getD i []).length ≤ n ∧
       (i + 1 < (saveShards l n).length → ((saveShards l n).getD i []).length = n)) := by
  suffices H : ∀ (k : ℕ) (l : List α), l.length ≤ k →
      ((saveShards l n).length = (l.length + n - 1) / n ∧
       (saveShards l n).flatten = l ∧
       ∀ i, i < (saveShards l n).length →
         (0 < ((saveShards l n).getD i []).length ∧
          ((saveShards l n).getD i []).length ≤ n ∧
          (i + 1 < (saveShards l n).length → ((saveShards l n).getD i []).length = n))) by
    exact H l.length l le_rfl
  intro k
  induction k with
  | zero =>
    intro l hl
    have h0 : l = [] := List.length_eq_zero.mp (Nat.le_zero.mp hl)
    subst h0
    rw [saveShards_nil n hn]
    exact ⟨by simp [Nat.div_eq_of_lt (show n - 1 < n by omega)], rfl,
      fun i hi => absurd hi (by simp)⟩
  | succ k ih =>
    intro l hl
    by_cases hnil : l = []
    · subst hnil
      rw [saveShards_nil n hn]
      exact ⟨by simp [Nat.div_eq_of_lt (show n - 1 < n by omega)], rfl,
        fun i hi => absurd hi (by simp)⟩
    · have hlen : 0 < l.length := List.length_pos.mpr hnil
      have hdl : (l.drop n).length ≤ k := by rw [List.length_drop]; omega
      obtain ⟨ih1, ih2, ih3⟩ := ih (l.drop n) hdl
      rw [saveShards_cons l n hn hnil]
      have hcount : (l.take n :: saveShards (l.drop n) n).length = (l.length + n - 1) / n := by
        rw [List.length_cons, ih1, List.length_drop]
        exact ceil_div_succ l.length n hn hlen
      refine ⟨hcount, ?_, ?_⟩
      · rw [List.flatten_cons, ih2, List.take_append_drop]
      · intro i hi
        cases i with
        | zero =>
          simp only [List.getD_cons_zero, List.length_take]
          refine ⟨by omega, by omega, ?_⟩
          intro h01
          have hrest : 0 < (saveShards (l.drop n) n).length := by
            simp only [List.length_cons] at h01
            omega
          by_contra hne
          have hlen2 : l.length < n := by omega
          have hdropnil : l.drop n = [] := List.drop_eq_nil_iff.mpr (le_of_lt hlen2)
          rw [hdropnil, saveShards_nil n hn] at hrest
          simp at hrest
        | succ i =>
          simp only [List.getD_cons_succ, List.length_cons] at hi ⊢
          have hi' : i < (saveShards (l.drop n) n).length := by omega
          obtain ⟨p1, p2, p3⟩ := ih3 i hi'
          exact ⟨p1, p2, fun h => p3 (by omega)⟩

/-- C6 witness: three records with shard size two give two shards, sizes
two and one, concatenating back to the sequence. -/
theorem saveShards_partition_witness :
    (0 < 2) ∧
    ((saveShards [0, 1, 2] 2).length = (([0, 1, 2] : List ℕ).length + 2 - 1) / 2 ∧
     (saveShards [0, 1, 2] 2).flatten = [0, 1, 2] ∧
     ∀ i, i < (saveShards [0, 1, 2] 2).length →
       (0 < ((saveShards [0, 1, 2] 2).getD i []).length ∧
        ((saveShards [0, 1, 2] 2).getD i []).length ≤ 2 ∧
        (i + 1 < (saveShards [0, 1, 2] 2).length →
          ((saveShards [0, 1, 2] 2).getD i []).length = 2))) :=
  ⟨by decide, saveShards_partition [0, 1, 2] 2 (by decide)⟩
